import Mathlib

/-!
# Verification of rabbit-digger core components

A shallow embedding, in Lean 4, of the core data model and algorithms of the
rabbit-digger repository: the domain-rule matcher (`rd-std/src/rule/domain.rs`),
the controller configuration slot and event batching loop (`src/controller.rs`),
the fixed-index select composite (`src/composite/select.rs`), the server schema
injection (`rd-interface/src/registry.rs`), named-reference resolution and
dependency discovery (`rd-interface/src/registry/net_ref.rs`), and the
topological build-order utility (`src/util.rs`).

Rust `HashMap`s are embedded as association lists (one list per iteration
order; theorems quantify over the list, hence over every possible iteration
order); `Result<T, E>` becomes `Except E T`; `Option<T>` becomes `Option T`.
-/

namespace RabbitDigger

/-! ## Error model

Modelled from the spec: the error enum of `rd-interface` (`error.rs` is not in
this snapshot).  Section 7 of the spec lists the kinds: `NotImplemented`
(capability deliberately unsupported), `NotFound(name)` (referenced
net/dependency absent), `Deserialize` (configuration does not match a factory's
expected shape), an I/O failure kind, `Other`.  `NotFound` and `NotImplemented` are also
visible in `net_ref.rs` and `lib.rs` under `src/`. -/
inductive Error where
  | NotImplemented : Error
  | NotFound : String → Error
  | Deserialize : String → Error
  | IoError : String → Error
  | Other : String → Error
deriving DecidableEq, Repr

/-! ## Address model

`Address` from the spec's data model: tagged union of a domain name with port
and a socket address (the concrete `address.rs` is not in this snapshot; the
shape is fixed by the spec §3 and by the uses in `rule/domain.rs`). -/
inductive Address where
  | Domain : String → Nat → Address
  | SocketAddr : Nat → Nat → Address
deriving DecidableEq, Repr

/-! ## Domain matcher (`rd-std/src/rule/domain.rs`) -/

/-- The three domain-matching methods of `DomainMatcherMethod`. -/
inductive Method where
  | Keyword : Method
  | Suffix : Method
  | Match : Method
deriving DecidableEq, Repr

/-- `DomainMatcher` configuration: a method and a pattern string. -/
structure DomainMatcher where
  method : Method
  domain : String
deriving DecidableEq, Repr

/-- Rust `str::contains(pattern)`: some split of the haystack has the pattern
as a prefix of its tail (substring containment, over byte/char lists). -/
def containsSub (hay needle : List Char) : Bool :=
  match hay with
  | [] => needle.isEmpty
  | _ :: t => needle.isPrefixOf hay || containsSub t needle

/-- `DomainMatcher::test`: keyword is substring containment, match is string
equality, suffix is `str::ends_with` (plain string suffix). -/
def DomainMatcher.test (self : DomainMatcher) (domain : String) : Bool :=
  match self.method with
  | .Keyword => containsSub domain.data self.domain.data
  | .Match => domain == self.domain
  | .Suffix => self.domain.data.isSuffixOf domain.data

/-- `Matcher::match_rule` for `DomainMatcher`: test the domain of a `Domain`
address; any non-domain address is reported as no-match. -/
def DomainMatcher.match_rule (self : DomainMatcher) (addr : Address) : Bool :=
  match addr with
  | .Domain domain _ => self.test domain
  | _ => false

/-! ## Controller configuration slot (`src/controller.rs`)

`Inner.config : Option<Config>` is the single configuration slot.  The two
mutators run under the write lock; each is embedded as a pure transition on the
slot returning the call's outcome together with the slot's new contents
(`anyhow::bail!` leaves the slot untouched). -/

/-- `Controller::update_config`: fails if a configuration is already active,
otherwise stores the new configuration. -/
def update_config {C : Type} (config : Option C) (c : C) : Except String Unit × Option C :=
  if config.isSome then (.error "this controller already has a config", config)
  else (.ok (), some c)

/-- `Controller::remove_config`: fails if no configuration is active,
otherwise clears the slot. -/
def remove_config {C : Type} (config : Option C) : Except String Unit × Option C :=
  if config.isNone then (.error "failed to remove config from controller", config)
  else (.ok (), none)

/-! ## Event batching loop (`src/controller.rs`, `process`)

One round of the `process` loop: a blocking first `recv` yields one event, then
the `now_or_never` drain loop takes every event already queued, and the whole
run is published as one batch (`Vec::with_capacity(16)` only preallocates).  An
execution of the loop is determined by the runs of immediately-available
events it encounters: `chunks` lists, per wakeup that found the queue
non-empty, the queued events drained together (an empty chunk is a wakeup that
found nothing and slept; it publishes nothing). -/

/-- The batches published by `process` for a given sequence of
immediately-available runs: every non-empty run becomes exactly one batch. -/
def processBatches {E : Type} (chunks : List (List E)) : List (List E) :=
  chunks.filter (fun c => !c.isEmpty)

/-! ## Select composite (`src/composite/select.rs`) -/

/-- `SelectNet::new`: collect the values of the name→net map (in iteration
order); zero candidates is a construction-time error. -/
def SelectNet.new {N : Type} (net : List (String × N)) : Except String (List N) :=
  let nets := net.map Prod.snd
  if nets.length == 0 then .error "net_list is required"
  else .ok nets

/-- `SelectNet::get`: index is fixed at 0; the guard resets it to 0 when
`index > nets.length`; then the candidate list is indexed. -/
def SelectNet.get {N : Type} (nets : List N) : Option N :=
  let index : Nat := 0
  let index := if index > nets.length then 0 else index
  nets.get? index

/-- The boolean condition of the bounds-check branch inside `SelectNet::get`,
evaluated at the fixed index 0. -/
def SelectNet.boundsBranchTaken {N : Type} (nets : List N) : Bool :=
  decide ((0 : Nat) > nets.length)

/-! ## Association-list maps

Rust `HashMap` / `BTreeMap` embedded as association lists: `lookup` finds the
first binding, `listInsert` overwrites an existing binding or appends a new
one (`HashMap::insert` semantics; one list per iteration order). -/

/-- Lookup of a key's value (`HashMap::get`). -/
def lookupKey {K V : Type} [DecidableEq K] (m : List (K × V)) (k : K) : Option V :=
  (m.find? (fun p => decide (p.1 = k))).map Prod.snd

/-- Insert with overwrite (`HashMap::insert`). -/
def listInsert {K V : Type} [DecidableEq K] (m : List (K × V)) (k : K) (v : V) :
    List (K × V) :=
  if m.any (fun p => decide (p.1 = k)) then m.map (fun p => if p.1 = k then (k, v) else p)
  else m ++ [(k, v)]

/-! ## Networking interface and the no-op placeholder

The capability set `{tcp_connect, tcp_bind, udp_bind}`; results are kept
abstract (only which error, if any, matters here).

Modelled from the spec: `interface.rs` is not in this snapshot; §4.1 fixes the
contract, and `NotImplementedNet` ("a no-op implementation answers every call
with a `NotImplemented` failure") matches `NoopNet` in `rd-interface/src/lib.rs`. -/
structure INet where
  tcp_connect : Address → Except Error Unit
  tcp_bind : Address → Except Error Unit
  udp_bind : Address → Except Error Unit

/-- The no-op placeholder net: every capability answers `NotImplemented`. -/
def NotImplementedNet : INet :=
  { tcp_connect := fun _ => .error .NotImplemented
    tcp_bind := fun _ => .error .NotImplemented
    udp_bind := fun _ => .error .NotImplemented }

/-- `NetMap`: name → shared net handle.  The handle type is a parameter `N`;
a value of type `N` stands for one `Arc` handle, so equal values model clones
of the same shared instance. -/
abbrev NetMap (N : Type) : Type := List (String × N)

/-! ## Named references (`rd-interface/src/registry/net_ref.rs`) -/

/-- `NetRef`: a name plus the optional resolved handle. -/
structure NetRef (N : Type) where
  name : String
  net : Option N
deriving DecidableEq, Repr

/-- `NetRef::resolve`: look the name up in `nets`, fail with `NotFound(name)`
when absent, otherwise fill the handle slot (Rust mutates in place; the
embedding returns the updated value). -/
def NetRef.resolve {N : Type} (self : NetRef N) (nets : NetMap N) : Except Error (NetRef N) :=
  match lookupKey nets self.name with
  | none => .error (.NotFound self.name)
  | some net => .ok { self with net := some net }

/-- `ResolveNetRef` for `Vec<T>`: resolve each element in order, propagating
the first failure (`for i in self.iter_mut() { i.resolve(nets)?; }`). -/
def resolveList {N : Type} : List (NetRef N) → NetMap N → Except Error (List (NetRef N))
  | [], _ => .ok []
  | r :: rest, nets =>
    (r.resolve nets).bind fun r2 => (resolveList rest nets).map fun l => r2 :: l

/-- The `loop` body of `ResolveNetRef::get_dependency`, fuelled (the Rust loop
is unbounded; `Error.Other "get_dependency diverged"` marks exhausted fuel).
Generic in the config type and its `resolve`, exactly like the trait default
method: on `NotFound(key)` insert the one `noop` placeholder under `key` and
retry; on success return the accumulated map and the final config state. -/
def getDepLoop {N Cfg : Type} (resolve : Cfg → NetMap N → Except Error Cfg) (noop : N) :
    Nat → Cfg → NetMap N → Except Error (NetMap N × Cfg)
  | 0, _, _ => .error (.Other "get_dependency diverged")
  | fuel + 1, self, tmp_map =>
    match resolve self tmp_map with
    | .ok self' => .ok (tmp_map, self')
    | .error (.NotFound key) => getDepLoop resolve noop fuel self (listInsert tmp_map key noop)
    | .error e => .error e

/-- `ResolveNetRef::get_dependency`: run the loop from an empty stub map with
the shared no-op placeholder, and return the accumulated keys (plus, for the
invariant claims, the final resolved config). -/
def get_dependency {Cfg : Type} (resolve : Cfg → NetMap INet → Except Error Cfg)
    (fuel : Nat) (self : Cfg) : Except Error (List String × Cfg) :=
  (getDepLoop resolve NotImplementedNet fuel self []).map
    (fun p => (p.1.map Prod.fst, p.2))

/-! ## Registry resolvers (`rd-interface/src/registry.rs`) -/

/-- Untyped configuration values (`serde_json::Value`). -/
inductive Value where
  | Null : Value
  | Bool : Bool → Value
  | Num : Int → Value
  | Str : String → Value
  | Arr : List Value → Value
  | Obj : List (String × Value) → Value

/-- Deserialization of one `NetRef` (its `Deserialize` impl accepts exactly a
string, the net name; the handle slot starts empty). -/
def deserializeNetRef {N : Type} : Value → Except Error (NetRef N)
  | .Str s => .ok ⟨s, none⟩
  | _ => .error (.Deserialize "Net name string")

/-- Deserialization of a `Vec<NetRef>` configuration (the representative typed
factory config, as in the `net_ref.rs` test): an array of name strings. -/
def deserializeVecNetRef {N : Type} : Value → Except Error (List (NetRef N))
  | .Arr l => l.mapM deserializeNetRef
  | _ => .error (.Deserialize "a sequence")

/-- `NetResolver::build`: deserialize the untyped value into the factory's
typed config, resolve its named references against `nets`, then invoke the
factory constructor (`N::new`); each step's failure short-circuits exactly as
the `and_then` chain does (the final trait-object upcast is the identity on
the result and is omitted). -/
def NetResolver.build {N Cfg NetOut : Type}
    (deserialize : Value → Except Error Cfg)
    (resolve : Cfg → NetMap N → Except Error Cfg)
    (construct : Cfg → Except Error NetOut)
    (nets : NetMap N) (cfg : Value) : Except Error NetOut :=
  (((deserialize cfg).bind (fun c => resolve c nets)).bind construct)

/-- The published type of one schema property, as far as the claims need it:
`NetRef` publishes `instance_type: String`; any other factory-declared
property shape is kept opaque. -/
inductive SchemaTy where
  | StringTy : SchemaTy
  | OtherTy : String → SchemaTy
deriving DecidableEq, Repr

/-- `NetRef`'s `JsonSchema` impl: a plain string-typed schema. -/
def NetRefSchema : SchemaTy := .StringTy

/-- `ServerResolver::new`'s schema construction: start from the factory
config's own schema properties and insert `net` and `listen`, both mapped to
`NetRef`'s schema (`BTreeMap::insert`, so a same-named factory field is
overwritten). -/
def ServerResolver.schemaProperties (base : List (String × SchemaTy)) :
    List (String × SchemaTy) :=
  listInsert (listInsert base "net" NetRefSchema) "listen" NetRefSchema

/-! ## Topological sort (`src/util.rs`)

`topological_sort(map, get_deps)` feeds every dependency pair into the
`topological_sort` crate's `TopologicalSort`: for each entry `(k, v)` of the
map and each `d` in `get_deps(v)?` it records `add_dependency(d, k)` — the
edge "`d` before `k`" — registering both endpoints as elements.  It then pops
elements until none is poppable; an element is poppable exactly when every
recorded edge into it comes from an already-popped element.  Leftover elements
mean a cycle (`Ok(None)`); otherwise the popped keys are mapped back through
`map.remove`, dropping popped keys that are not map keys (`filter_map`). -/

/-- Edge collection: iterate the map entries, calling `get_deps` (whose error
propagates, as `?` does) and pairing each dependency `d` with the entry key. -/
def collectEdges {K V E : Type} (get_deps : V → Except E (List K)) :
    List (K × V) → Except E (List (K × K))
  | [] => .ok []
  | kv :: rest =>
    (get_deps kv.2).bind fun ds =>
      (collectEdges get_deps rest).map fun es => ds.map (fun d => (d, kv.1)) ++ es

/-- The same edge list when `get_deps` is infallible. -/
def pureEdges {K V : Type} (deps : V → List K) : List (K × V) → List (K × K)
  | [] => []
  | kv :: rest => (deps kv.2).map (fun d => (d, kv.1)) ++ pureEdges deps rest

/-- Register an element once (`TopologicalSort` keeps one entry per key). -/
def addElem {K : Type} [DecidableEq K] (l : List K) (x : K) : List K :=
  if x ∈ l then l else l ++ [x]

/-- The elements registered by `add_dependency`: both endpoints of every
edge. -/
def elemsOf {K : Type} [DecidableEq K] (edges : List (K × K)) : List K :=
  edges.foldl (fun acc e => addElem (addElem acc e.1) e.2) []

/-- `TopologicalSort::pop` readiness: `x` has no pending predecessor, i.e. no
recorded edge `(u, x)` whose source `u` is still unpopped (in `R`). -/
def poppable {K : Type} [DecidableEq K] (edges : List (K × K)) (R : List K) (x : K) : Bool :=
  edges.all fun e => decide (e.2 ≠ x ∨ e.1 ∉ R)

/-- One `pop`: the first unpopped element with no pending predecessor. -/
def kahnStep {K : Type} [DecidableEq K] (edges : List (K × K)) (R : List K) : Option K :=
  R.find? (poppable edges R)

/-- The `while let Some(k) = ts.pop()` loop: repeatedly pop, accumulating the
popped order; `fuel = |R|` suffices since every pop removes one element. -/
def kahnAux {K : Type} [DecidableEq K] (edges : List (K × K)) :
    Nat → List K → List K → List K × List K
  | 0, R, out => (out, R)
  | fuel + 1, R, out =>
    match kahnStep edges R with
    | none => (out, R)
    | some x => kahnAux edges fuel (R.erase x) (out ++ [x])

/-- `list.into_iter().map(|k| map.remove(&k).map(|v| (k, v))).filter_map(..)`:
look each popped key up in the (shrinking) map, dropping keys with no entry. -/
def extractEntries {K V : Type} [DecidableEq K] (map : List (K × V)) : List K → List (K × V)
  | [] => []
  | k :: ks =>
    match map.find? (fun kv => decide (kv.1 = k)) with
    | none => extractEntries map ks
    | some kv => (k, kv.2) :: extractEntries (map.eraseP (fun kv => decide (kv.1 = k))) ks

/-- `topological_sort` (src/util.rs): collect edges, pop everything poppable,
report a cycle as `Ok(None)` when elements remain, otherwise return the map
entries in popped order. -/
def topological_sort {K V E : Type} [DecidableEq K] (map : List (K × V))
    (get_deps : V → Except E (List K)) : Except E (Option (List (K × V))) :=
  (collectEdges get_deps map).map fun edges =>
    let es := elemsOf edges
    let res := kahnAux edges es.length es []
    if res.2.length > 0 then none
    else some (extractEntries map res.1)

/-- The dependency-edge relation recorded for a map: `u` must precede `v`. -/
def edgeRel {K : Type} (edges : List (K × K)) (u v : K) : Prop := (u, v) ∈ edges

/-- A dependency cycle: some key reaches itself through recorded edges. -/
def HasCycle {K : Type} (edges : List (K × K)) : Prop :=
  ∃ x, Relation.TransGen (edgeRel edges) x x

end RabbitDigger

/-! # Theorems -/

namespace RabbitDigger

/-! ## Association-list map lemmas -/

theorem lookupKey_nil {K V : Type} [DecidableEq K] (k : K) :
    lookupKey ([] : List (K × V)) k = none := rfl

theorem lookupKey_cons {K V : Type} [DecidableEq K] (p : K × V) (m : List (K × V)) (k : K) :
    lookupKey (p :: m) k = if p.1 = k then some p.2 else lookupKey m k := by
  simp only [lookupKey, List.find?]
  split <;> rename_i h
  · simp_all
  · simp_all

theorem lookupKey_map_overwrite_ne {K V : Type} [DecidableEq K]
    (m : List (K × V)) (k k2 : K) (v : V) (h : k2 ≠ k) :
    lookupKey (m.map fun p => if p.1 = k then (k, v) else p) k2 = lookupKey m k2 := by
  induction m with
  | nil => rfl
  | cons p t ih =>
    rw [List.map_cons, lookupKey_cons, lookupKey_cons]
    by_cases hp : p.1 = k
    · rw [if_pos hp]
      rw [if_neg (show ¬ (k, v).1 = k2 from fun he => h he.symm),
          if_neg (show ¬ p.1 = k2 from fun he => h (hp.symm.trans he).symm), ih]
    · rw [if_neg hp]
      by_cases hk2 : p.1 = k2
      · rw [if_pos hk2, if_pos hk2]
      · rw [if_neg hk2, if_neg hk2, ih]

theorem lookupKey_map_overwrite_self {K V : Type} [DecidableEq K]
    (m : List (K × V)) (k : K) (v : V)
    (h : m.any (fun p => decide (p.1 = k)) = true) :
    lookupKey (m.map fun p => if p.1 = k then (k, v) else p) k = some v := by
  induction m with
  | nil => simp at h
  | cons p t ih =>
    by_cases hp : p.1 = k
    · simp [List.map_cons, hp, lookupKey_cons]
    · simp only [List.any_cons, Bool.or_eq_true, decide_eq_true_eq] at h
      rcases h with h | h
      · exact absurd h hp
      · rw [List.map_cons, lookupKey_cons, if_neg hp]
        rw [if_neg (show ¬ p.1 = k from hp)]
        exact ih h

theorem lookupKey_append_missing {K V : Type} [DecidableEq K]
    (m : List (K × V)) (k k2 : K) (v : V)
    (h : m.any (fun p => decide (p.1 = k)) = false) :
    lookupKey (m ++ [(k, v)]) k2 = if k2 = k then some v else lookupKey m k2 := by
  induction m with
  | nil => simp [lookupKey_cons, lookupKey_nil, eq_comm]
  | cons p t ih =>
    simp only [List.any_cons, Bool.or_eq_false_iff, decide_eq_false_iff_not] at h
    obtain ⟨hp, ht⟩ := h
    rw [List.cons_append, lookupKey_cons, lookupKey_cons, ih (by simpa using ht)]
    by_cases hkk : k2 = k
    · rw [if_neg (show ¬ p.1 = k2 from fun he => hp (he.trans hkk)), if_pos hkk, if_pos hkk]
    · rw [if_neg hkk, if_neg hkk]

/-- `lookupKey` after `listInsert` behaves as map insertion: the inserted key
maps to the new value, all other keys are unaffected. -/
theorem lookupKey_listInsert {K V : Type} [DecidableEq K]
    (m : List (K × V)) (k k2 : K) (v : V) :
    lookupKey (listInsert m k v) k2 = if k2 = k then some v else lookupKey m k2 := by
  unfold listInsert
  split <;> rename_i h
  · by_cases hk : k2 = k
    · rw [if_pos hk, hk, lookupKey_map_overwrite_self m k v h]
    · rw [if_neg hk, lookupKey_map_overwrite_ne m k k2 v hk]
  · exact lookupKey_append_missing m k k2 v
      (by revert h; cases m.any fun p => decide (p.1 = k) <;> simp)

/-- Every binding of `listInsert m k v` is either the new binding or one that
was already in `m`. -/
theorem mem_listInsert {K V : Type} [DecidableEq K]
    (m : List (K × V)) (k : K) (v : V) (q : K × V) (hq : q ∈ listInsert m k v) :
    q = (k, v) ∨ q ∈ m := by
  unfold listInsert at hq
  split at hq
  · rcases List.mem_map.mp hq with ⟨p, hp, hpq⟩
    by_cases hk : p.1 = k
    · left; rw [← hpq, if_pos hk]
    · right; rw [← hpq, if_neg hk]; exact hp
  · rcases List.mem_append.mp hq with h | h
    · right; exact h
    · left; simpa using h

/-- Key membership matches `lookupKey` success. -/
theorem lookupKey_isSome_iff {K V : Type} [DecidableEq K] (m : List (K × V)) (k : K) :
    (lookupKey m k).isSome = true ↔ k ∈ m.map Prod.fst := by
  induction m with
  | nil => simp [lookupKey_nil]
  | cons p t ih =>
    rw [lookupKey_cons]
    by_cases hp : p.1 = k
    · simp [hp]
    · simp only [if_neg hp, List.map_cons, List.mem_cons]
      rw [ih]
      constructor
      · exact fun h => Or.inr h
      · rintro (h | h)
        · exact absurd h.symm hp
        · exact h

/-! ## C3: domain matcher -/

/-- C3 counterexample: the claim says the `Suffix` matcher with pattern
`"example.com"` does not match `"notexample.com"`, but `str::ends_with` is a
plain string-suffix test and `"notexample.com"` does end with
`"example.com"`, so the matcher matches it. -/
theorem suffix_matcher_matches_notexample :
    (DomainMatcher.mk .Suffix "example.com").match_rule (.Domain "notexample.com" 443) = true := by
  decide

/-- C3 (amended): `Suffix` with pattern `"example.com"` matches
`"www.example.com"`, `"example.com"` and also `"notexample.com"` (plain
string-suffix containment, no label boundary); `Keyword` with `"ads"` matches
`"ads.tracker.com"`; `Match` matches a domain exactly when it is
byte-identical to the pattern; every matcher reports no-match on a non-domain
address. -/
theorem domain_matcher_methods :
    (DomainMatcher.mk .Suffix "example.com").match_rule (.Domain "www.example.com" 443) = true ∧
    (DomainMatcher.mk .Suffix "example.com").match_rule (.Domain "example.com" 443) = true ∧
    (DomainMatcher.mk .Suffix "example.com").match_rule (.Domain "notexample.com" 443) = true ∧
    (DomainMatcher.mk .Keyword "ads").match_rule (.Domain "ads.tracker.com" 443) = true ∧
    (∀ pat d port,
      (DomainMatcher.mk .Match pat).match_rule (.Domain d port) = true ↔ d = pat) ∧
    (∀ (m : DomainMatcher) (ip port : Nat), m.match_rule (.SocketAddr ip port) = false) := by
  refine ⟨by decide, by decide, by decide, by decide, ?_, ?_⟩
  · intro pat d port
    simp [DomainMatcher.match_rule, DomainMatcher.test]
  · intro m ip port
    rfl

/-! ## C6: controller configuration slot -/

/-- C6: `update_config` fails exactly when a configuration is already active
and otherwise stores the new one; `remove_config` fails exactly when none is
active and otherwise clears the slot; a failing call leaves the slot
unchanged; hence two updates in a row fail on the second, and a remove
without an active configuration fails. -/
theorem controller_config_single_slot {C : Type} :
    (∀ (config : Option C) (c : C),
      ((update_config config c).1 = .ok () ↔ config = none) ∧
      (update_config config c).2 = (if config.isSome then config else some c)) ∧
    (∀ config : Option C,
      ((remove_config config).1 = .ok () ↔ config ≠ none) ∧
      (remove_config config).2 = (if config.isNone then config else none)) ∧
    (∀ c c2 : C, (update_config (update_config (none : Option C) c).2 c2).1 ≠ .ok ()) ∧
    (∀ c : C, (remove_config (remove_config (some c)).2).1 ≠ .ok ()) := by
  refine ⟨fun config c => ?_, fun config => ?_, fun c c2 => ?_, fun c => ?_⟩
  · cases config <;> simp [update_config]
  · cases config <;> simp [remove_config]
  · simp [update_config]
  · simp [remove_config]

/-! ## C2: event batching -/

/-- C2 counterexample: 20 events queued together are published as one batch
of 20 events — the drain loop has no 16-event cap (`with_capacity(16)` only
preallocates), refuting "batches of at most 16 events each". -/
theorem process_batch_no_cap_counterexample :
    processBatches [List.range 20] = [List.range 20] ∧ 16 < (List.range 20).length := by
  exact ⟨rfl, by decide⟩

/-- C2 (amended): each wakeup publishes the whole run of immediately-available
events as exactly one batch, of unbounded size (no 16-event cap); every pushed
event appears in exactly one published batch, the concatenation of the batches
preserves the original emission order, and every published batch is
non-empty. -/
theorem process_batches_preserve_events {E : Type} (chunks : List (List E)) :
    (processBatches chunks).flatten = chunks.flatten ∧
    (∀ b ∈ processBatches chunks, b ≠ []) ∧
    (∀ b ∈ processBatches chunks, b ∈ chunks) := by
  refine ⟨?_, ?_, ?_⟩
  · induction chunks with
    | nil => rfl
    | cons c t ih =>
      by_cases hc : c.isEmpty
      · have hnil : c = [] := List.isEmpty_iff.mp hc
        simp [processBatches, List.filter, hc, hnil] at ih ⊢
        simpa [processBatches] using ih
      · have hc2 : c.isEmpty = false := by revert hc; cases c.isEmpty <;> simp
        simp only [processBatches, List.filter, hc2, Bool.not_false, List.flatten_cons] at ih ⊢
        rw [ih]
  · intro b hb
    have := List.of_mem_filter hb
    simpa [List.isEmpty_iff] using this
  · intro b hb
    exact List.mem_of_mem_filter hb

/-- C2 witness: the amended batching theorem at a concrete run of 20 events. -/
theorem process_batches_preserve_events_witness :
    (processBatches [List.range 20]).flatten = ([List.range 20]).flatten :=
  (process_batches_preserve_events [List.range 20]).1

/-! ## C7: select composite -/

/-- C7: `SelectNet::new` fails exactly on an empty candidate map; the
bounds-check branch (`index > len`) is never taken; per-call candidate lookup
always selects index 0, so it succeeds on every net list produced by a
successful construction. -/
theorem select_net_fixed_index {N : Type} :
    (∀ m : List (String × N), (∃ msg, SelectNet.new m = .error msg) ↔ m = []) ∧
    (∀ nets : List N,
      SelectNet.boundsBranchTaken nets = false ∧ SelectNet.get nets = nets.head?) ∧
    (∀ (m : List (String × N)) (nets : List N),
      SelectNet.new m = .ok nets → ∃ n, SelectNet.get nets = some n) := by
  refine ⟨fun m => ?_, fun nets => ?_, fun m nets hok => ?_⟩
  · cases m <;> simp [SelectNet.new]
  · constructor
    · simp [SelectNet.boundsBranchTaken]
    · cases nets <;> rfl
  · simp only [SelectNet.new] at hok
    split at hok <;> rename_i hcond
    · cases hok
    · rw [Except.ok.injEq] at hok
      subst hok
      rcases hmm : m.map Prod.snd with _ | ⟨n, t⟩
      · rw [hmm] at hcond
        simp at hcond
      · exact ⟨n, rfl⟩

/-- C7 witness: a two-candidate construction succeeds and selection yields a
candidate. -/
theorem select_net_fixed_index_witness :
    ∃ n, SelectNet.get [(3 : Nat), 4] = some n :=
  (select_net_fixed_index).2.2 [("a", 3), ("b", 4)] [3, 4] rfl

/-! ## Resolution lemmas (for C4, C5, C10) -/

theorem lookupKey_some_mem {K V : Type} [DecidableEq K] {m : List (K × V)} {k : K} {v : V}
    (h : lookupKey m k = some v) : (k, v) ∈ m := by
  unfold lookupKey at h
  cases hf : m.find? fun p => decide (p.1 = k) with
  | none => rw [hf] at h; cases h
  | some p =>
    rw [hf] at h
    have hk : p.1 = k := by simpa using List.find?_some hf
    have hv : p.2 = v := by simpa using h
    have := List.mem_of_find?_eq_some hf
    rwa [← hk, ← hv, Prod.mk.eta]

theorem NetRef.resolve_ok {N : Type} {r r2 : NetRef N} {nets : NetMap N}
    (h : r.resolve nets = .ok r2) :
    ∃ n, lookupKey nets r.name = some n ∧ r2 = ⟨r.name, some n⟩ := by
  unfold NetRef.resolve at h
  cases hl : lookupKey nets r.name with
  | none => rw [hl] at h; cases h
  | some n =>
    rw [hl] at h
    exact ⟨n, rfl, by cases h; rfl⟩

theorem resolveList_nil {N : Type} (nets : NetMap N) :
    resolveList ([] : List (NetRef N)) nets = .ok [] := rfl

theorem resolveList_cons {N : Type} (r : NetRef N) (rest : List (NetRef N)) (nets : NetMap N) :
    resolveList (r :: rest) nets =
      (r.resolve nets).bind fun r2 => (resolveList rest nets).map fun l => r2 :: l := rfl

theorem resolveList_ok_mem {N : Type} :
    ∀ (l l2 : List (NetRef N)) (nets : NetMap N), resolveList l nets = .ok l2 →
      ∀ r2 ∈ l2, ∃ r ∈ l, r.resolve nets = .ok r2 := by
  intro l
  induction l with
  | nil =>
    intro l2 nets h r2 hr2
    rw [resolveList_nil] at h
    cases h
    cases hr2
  | cons r rest ih =>
    intro l2 nets h r2 hr2
    rw [resolveList_cons] at h
    cases hres : r.resolve nets with
    | error e => rw [hres] at h; cases h
    | ok rh =>
      rw [hres] at h
      cases hrest : resolveList rest nets with
      | error e => rw [hrest] at h; cases h
      | ok lrest =>
        rw [hrest] at h
        cases h
        rcases List.mem_cons.mp hr2 with h2 | h2
        · exact ⟨r, List.mem_cons_self _ _, by rw [hres, h2]⟩
        · rcases ih lrest nets hrest r2 h2 with ⟨r3, hr3, hok⟩
          exact ⟨r3, List.mem_cons_of_mem _ hr3, hok⟩

/-- On a list of references with at least one name absent from `nets`,
`resolve` fails with `NotFound` of such a name (the first missing one). -/
theorem resolveList_notfound {N : Type} :
    ∀ (refs : List (NetRef N)) (nets : NetMap N),
      (∃ r ∈ refs, lookupKey nets r.name = none) →
      ∃ name, lookupKey nets name = none ∧ name ∈ refs.map NetRef.name ∧
        resolveList refs nets = .error (.NotFound name) := by
  intro refs
  induction refs with
  | nil =>
    intro nets h
    rcases h with ⟨r, hr, _⟩
    cases hr
  | cons r rest ih =>
    intro nets h
    cases hl : lookupKey nets r.name with
    | none =>
      refine ⟨r.name, hl, List.mem_cons_self _ _, ?_⟩
      rw [resolveList_cons]
      unfold NetRef.resolve
      rw [hl]
      rfl
    | some n =>
      rcases h with ⟨r2, hr2, hmiss⟩
      rcases List.mem_cons.mp hr2 with h2 | h2
      · rw [h2] at hmiss
        rw [hmiss] at hl
        cases hl
      · rcases ih nets ⟨r2, h2, hmiss⟩ with ⟨name, hn1, hn2, hn3⟩
        refine ⟨name, hn1, List.mem_cons_of_mem _ hn2, ?_⟩
        rw [resolveList_cons]
        unfold NetRef.resolve
        rw [hl, hn3]
        rfl

/-- `getDepLoop` invariant: when it returns, the final `resolve` against the
returned map succeeded with the returned config, and — if the map held only
the placeholder so far — every map value is the placeholder. -/
theorem getDepLoop_ok_inv {N Cfg : Type} (resolve : Cfg → NetMap N → Except Error Cfg)
    (noop : N) :
    ∀ (fuel : Nat) (self : Cfg) (tmp m : NetMap N) (self2 : Cfg),
      getDepLoop resolve noop fuel self tmp = .ok (m, self2) →
      (∀ p ∈ tmp, p.2 = noop) →
      resolve self m = .ok self2 ∧ ∀ p ∈ m, p.2 = noop := by
  intro fuel
  induction fuel with
  | zero => intro self tmp m self2 h _; cases h
  | succ fuel ih =>
    intro self tmp m self2 h hval
    unfold getDepLoop at h
    cases hres : resolve self tmp with
    | ok s1 =>
      rw [hres] at h
      cases h
      exact ⟨hres, hval⟩
    | error e =>
      rw [hres] at h
      cases e with
      | NotFound key =>
        refine ih self (listInsert tmp key noop) m self2 h ?_
        intro p hp
        rcases mem_listInsert tmp key noop p hp with h2 | h2
        · rw [h2]
        · exact hval p h2
      | NotImplemented => cases h
      | Deserialize msg => cases h
      | IoError msg => cases h
      | Other msg => cases h

/-- Pointwise-dominated counting with one strict witness is strictly
smaller. -/
theorem countP_lt_of_mem {α : Type} (p q : α → Bool) :
    ∀ (l : List α) (x : α), x ∈ l → (∀ a, q a = true → p a = true) →
      p x = true → q x = false → l.countP q < l.countP p := by
  intro l
  induction l with
  | nil => intro x hx; cases hx
  | cons a t ih =>
    intro x hx hpq hp hq
    rcases List.mem_cons.mp hx with h2 | h2
    · subst h2
      have hle : t.countP q ≤ t.countP p := List.countP_mono_left fun a _ => hpq a
      have he1 : (x :: t).countP p = t.countP p + 1 := by
        rw [List.countP_cons, hp]; simp
      have he2 : (x :: t).countP q = t.countP q := by
        rw [List.countP_cons, hq]; simp
      omega
    · have hhead : (if q a = true then 1 else 0) ≤ if p a = true then 1 else 0 := by
        by_cases hqa : q a = true
        · rw [if_pos hqa, if_pos (hpq a hqa)]
        · rw [if_neg hqa]
          exact Nat.zero_le _
      have ihx := ih x h2 hpq hp hq
      rw [List.countP_cons, List.countP_cons]
      omega

/-- The discovery loop driven by an arbitrary "which missing name is reported
first" choice `pick` (any resolve whose outcome depends only on which names
are present): it terminates once the fuel exceeds the number of names still
missing, and the accumulated stub map holds exactly the old keys plus all of
`refs`. -/
theorem getDepLoop_pick_keys (refs : List String) (pick : NetMap INet → Option String)
    (hsome : ∀ nets r, pick nets = some r → r ∈ refs ∧ lookupKey nets r = none)
    (hnone : ∀ nets, pick nets = none → ∀ r ∈ refs, (lookupKey nets r).isSome = true) :
    ∀ (fuel : Nat) (tmp : NetMap INet),
      refs.countP (fun r => !(lookupKey tmp r).isSome) < fuel →
      ∃ m, getDepLoop (fun (_ : Unit) nets =>
              match pick nets with
              | some r => .error (.NotFound r)
              | none => .ok ()) NotImplementedNet fuel () tmp = .ok (m, ()) ∧
        ∀ x, (lookupKey m x).isSome = true ↔
          ((lookupKey tmp x).isSome = true ∨ x ∈ refs) := by
  intro fuel
  induction fuel with
  | zero => intro tmp h; omega
  | succ fuel ih =>
    intro tmp h
    cases hp : pick tmp with
    | none =>
      refine ⟨tmp, ?_, fun x => ⟨Or.inl, ?_⟩⟩
      · unfold getDepLoop
        rw [hp]
      · rintro (hx | hx)
        · exact hx
        · exact hnone tmp hp x hx
    | some r =>
      obtain ⟨hrrefs, hrmiss⟩ := hsome tmp r hp
      have hcount : refs.countP
          (fun x => !(lookupKey (listInsert tmp r NotImplementedNet) x).isSome) < fuel := by
        have hlt := countP_lt_of_mem (fun x => !(lookupKey tmp x).isSome)
          (fun x => !(lookupKey (listInsert tmp r NotImplementedNet) x).isSome)
          refs r hrrefs ?_ ?_ ?_
        · omega
        · intro a hqa
          simp only [lookupKey_listInsert] at hqa
          by_cases har : a = r
          · rw [if_pos har] at hqa
            simp at hqa
          · rw [if_neg har] at hqa
            exact hqa
        · simp [hrmiss]
        · simp [lookupKey_listInsert]
      obtain ⟨m, hm, hiff⟩ := ih (listInsert tmp r NotImplementedNet) hcount
      refine ⟨m, ?_, fun x => ?_⟩
      · unfold getDepLoop
        rw [hp]
        exact hm
      · rw [hiff x, lookupKey_listInsert]
        by_cases hxr : x = r
        · subst hxr
          simp [hrrefs, hrmiss]
        · rw [if_neg hxr]

/-! ## C4: dependency discovery returns exactly the reference set -/

/-- C4: for a configuration whose distinct named references are `{a, b, c}`
and whose resolve outcome depends only on which names are present (modelled
by an arbitrary choice `pick` of which missing reference each failing resolve
reports), `get_dependency` terminates within any fuel of at least 4 and
returns exactly the set `{a, b, c}`, whatever the discovery order. -/
theorem get_dependency_terminates (a b c : String)
    (hab : a ≠ b) (hac : a ≠ c) (hbc : b ≠ c)
    (pick : NetMap INet → Option String)
    (hsome : ∀ nets r, pick nets = some r → r ∈ [a, b, c] ∧ lookupKey nets r = none)
    (hnone : ∀ nets, pick nets = none → ∀ r ∈ [a, b, c], (lookupKey nets r).isSome = true)
    (fuel : Nat) (hfuel : 4 ≤ fuel) :
    ∃ names : List String,
      get_dependency (fun (_ : Unit) nets =>
          match pick nets with
          | some r => .error (.NotFound r)
          | none => .ok ()) fuel () = .ok (names, ()) ∧
      names.toFinset = {a, b, c} := by
  have hcount : ([a, b, c]).countP (fun r => !(lookupKey ([] : NetMap INet) r).isSome) < fuel := by
    have := List.countP_le_length (l := [a, b, c])
        (p := fun r => !(lookupKey ([] : NetMap INet) r).isSome)
    simp only [List.length_cons, List.length_nil] at this
    omega
  obtain ⟨m, hm, hiff⟩ := getDepLoop_pick_keys [a, b, c] pick hsome hnone fuel [] hcount
  refine ⟨m.map Prod.fst, ?_, ?_⟩
  · unfold get_dependency
    rw [hm]
    rfl
  · ext x
    rw [List.mem_toFinset, ← lookupKey_isSome_iff, hiff x]
    simp [lookupKey_nil]

/-- C4 witness: discovery with the first-missing-in-list order over
`{"a", "b", "c"}` terminates at fuel 4 with exactly that set. -/
theorem get_dependency_terminates_witness :
    ∃ names : List String,
      get_dependency (fun (_ : Unit) nets =>
          match ["a", "b", "c"].find? (fun r => !(lookupKey nets r).isSome) with
          | some r => .error (.NotFound r)
          | none => .ok ()) 4 () = .ok (names, ()) ∧
      names.toFinset = {"a", "b", "c"} := by
  refine get_dependency_terminates "a" "b" "c" (by decide) (by decide) (by decide)
    (fun nets => ["a", "b", "c"].find? (fun r => !(lookupKey nets r).isSome))
    ?_ ?_ 4 (by decide)
  · intro nets r h
    refine ⟨List.mem_of_find?_eq_some h, ?_⟩
    have := List.find?_some h
    rw [Bool.not_eq_true'] at this
    cases hl : lookupKey nets r with
    | none => rfl
    | some n => rw [hl] at this; cases this
  · intro nets h r hr
    have := List.find?_eq_none.mp h r hr
    rw [Bool.not_eq_true', Bool.not_eq_false] at this
    exact this

/-! ## C10: dependency discovery resolves every reference to the shared no-op -/

/-- C10: whenever `get_dependency` (with the real `Vec<NetRef>` `resolve`)
returns successfully, every named reference in the final configuration state
is resolved, its slot holding the one shared `NotImplementedNet` placeholder,
and every networking call on that placeholder fails with `NotImplemented`. -/
theorem get_dependency_fills_noop (self : List (NetRef INet)) (fuel : Nat)
    (names : List String) (self2 : List (NetRef INet))
    (h : get_dependency resolveList fuel self = .ok (names, self2)) :
    (∀ r ∈ self2, r.net = some NotImplementedNet) ∧
    (∀ a : Address,
      NotImplementedNet.tcp_connect a = .error .NotImplemented ∧
      NotImplementedNet.tcp_bind a = .error .NotImplemented ∧
      NotImplementedNet.udp_bind a = .error .NotImplemented) := by
  refine ⟨?_, fun a => ⟨rfl, rfl, rfl⟩⟩
  unfold get_dependency at h
  cases hloop : getDepLoop resolveList NotImplementedNet fuel self [] with
  | error e => rw [hloop] at h; cases h
  | ok p =>
    rw [hloop] at h
    cases h
    rcases getDepLoop_ok_inv resolveList NotImplementedNet fuel self [] p.1 p.2
        (by rw [hloop]) (by intro q hq; cases hq) with ⟨hres, hval⟩
    intro r2 hr2
    rcases resolveList_ok_mem self p.2 p.1 hres r2 hr2 with ⟨r, _, hok⟩
    rcases NetRef.resolve_ok hok with ⟨n, hn, hr2eq⟩
    have : (r.name, n) ∈ p.1 := lookupKey_some_mem hn
    have hnn : n = NotImplementedNet := hval (r.name, n) this
    rw [hr2eq, hnn]

/-- C10 witness: one unresolved reference `"x"`; discovery (fuel 2) resolves
it to the shared placeholder, whose `tcp_connect` fails `NotImplemented`. -/
theorem get_dependency_fills_noop_witness :
    get_dependency resolveList 2 [NetRef.mk "x" none] =
      .ok (["x"], [NetRef.mk "x" (some NotImplementedNet)]) ∧
    NotImplementedNet.tcp_connect (.Domain "d" 1) = .error .NotImplemented :=
  ⟨rfl,
    ((get_dependency_fills_noop [NetRef.mk "x" none] 2 ["x"]
        [NetRef.mk "x" (some NotImplementedNet)] rfl).2 (.Domain "d" 1)).1⟩

/-! ## C5: NetResolver.build stages -/

/-- C5: `NetResolver::build` first deserializes (a shape mismatch yields that
`Deserialize` error), then resolves every named reference (an absent name
yields `NotFound(name)` for a referenced name, whatever the constructor — so
no instance is built), and invokes the factory constructor exactly on the
resolved configuration when both steps succeed. -/
theorem netresolver_build_stages {NetOut : Type}
    (construct : List (NetRef INet) → Except Error NetOut)
    (nets : NetMap INet) (v : Value) :
    (∀ e, deserializeVecNetRef (N := INet) v = .error e →
      NetResolver.build deserializeVecNetRef resolveList construct nets v = .error e) ∧
    (∀ refs, deserializeVecNetRef (N := INet) v = .ok refs →
      (∃ r ∈ refs, lookupKey nets r.name = none) →
      ∃ name, lookupKey nets name = none ∧ name ∈ refs.map NetRef.name ∧
        ∀ construct2 : List (NetRef INet) → Except Error NetOut,
          NetResolver.build deserializeVecNetRef resolveList construct2 nets v =
            .error (.NotFound name)) ∧
    (∀ refs refs2, deserializeVecNetRef (N := INet) v = .ok refs →
      resolveList refs nets = .ok refs2 →
      NetResolver.build deserializeVecNetRef resolveList construct nets v =
        construct refs2) := by
  refine ⟨fun e he => ?_, fun refs hde hmiss => ?_, fun refs refs2 hde hres => ?_⟩
  · unfold NetResolver.build
    rw [he]
    rfl
  · rcases resolveList_notfound refs nets hmiss with ⟨name, h1, h2, h3⟩
    refine ⟨name, h1, h2, fun construct2 => ?_⟩
    unfold NetResolver.build
    rw [hde]
    show (resolveList refs nets).bind construct2 = _
    rw [h3]
    rfl
  · unfold NetResolver.build
    rw [hde]
    show (resolveList refs nets).bind construct = _
    rw [hres]
    rfl

/-- C5 witness: a well-shaped configuration naming the undefined net `"x"`
against an empty net map builds nothing and fails with `NotFound`. -/
theorem netresolver_build_stages_witness :
    ∃ name, lookupKey ([] : NetMap INet) name = none ∧
      name ∈ [NetRef.mk (N := INet) "x" none].map NetRef.name ∧
      ∀ construct2 : List (NetRef INet) → Except Error Nat,
        NetResolver.build deserializeVecNetRef resolveList construct2 []
          (Value.Arr [Value.Str "x"]) = .error (.NotFound name) :=
  (netresolver_build_stages (fun c => .ok c.length) [] (Value.Arr [Value.Str "x"])).2.1
    [NetRef.mk "x" none] rfl ⟨NetRef.mk "x" none, List.mem_cons_self _ _, rfl⟩

/-! ## Topological sort lemmas (for C1, C9) -/

theorem mem_addElem {K : Type} [DecidableEq K] (l : List K) (x y : K) :
    y ∈ addElem l x ↔ y ∈ l ∨ y = x := by
  unfold addElem
  split <;> rename_i h
  · constructor
    · exact Or.inl
    · rintro (hy | hy)
      · exact hy
      · rw [hy]; exact h
  · simp

theorem addElem_nodup {K : Type} [DecidableEq K] (l : List K) (x : K) (h : l.Nodup) :
    (addElem l x).Nodup := by
  unfold addElem
  split <;> rename_i hx
  · exact h
  · rw [List.nodup_append]
    exact ⟨h, List.nodup_singleton x, by
      intro y hy hy2
      rw [List.mem_singleton] at hy2
      exact hx (hy2 ▸ hy)⟩

theorem mem_foldl_addElem {K : Type} [DecidableEq K] :
    ∀ (edges : List (K × K)) (acc : List K) (y : K),
      y ∈ edges.foldl (fun acc e => addElem (addElem acc e.1) e.2) acc ↔
        y ∈ acc ∨ ∃ e ∈ edges, y = e.1 ∨ y = e.2 := by
  intro edges
  induction edges with
  | nil => simp
  | cons e t ih =>
    intro acc y
    rw [List.foldl_cons, ih, mem_addElem, mem_addElem]
    constructor
    · rintro ((( h | h) | h) | ⟨e2, he2, h⟩)
      · exact Or.inl h
      · exact Or.inr ⟨e, List.mem_cons_self _ _, Or.inl h⟩
      · exact Or.inr ⟨e, List.mem_cons_self _ _, Or.inr h⟩
      · exact Or.inr ⟨e2, List.mem_cons_of_mem _ he2, h⟩
    · rintro (h | ⟨e2, he2, h⟩)
      · exact Or.inl (Or.inl (Or.inl h))
      · rcases List.mem_cons.mp he2 with h2 | h2
        · subst h2
          rcases h with h | h
          · exact Or.inl (Or.inl (Or.inr h))
          · exact Or.inl (Or.inr h)
        · exact Or.inr ⟨e2, h2, h⟩

theorem foldl_addElem_nodup {K : Type} [DecidableEq K] :
    ∀ (edges : List (K × K)) (acc : List K), acc.Nodup →
      (edges.foldl (fun acc e => addElem (addElem acc e.1) e.2) acc).Nodup := by
  intro edges
  induction edges with
  | nil => intro acc h; exact h
  | cons e t ih =>
    intro acc h
    exact ih _ (addElem_nodup _ _ (addElem_nodup _ _ h))

theorem mem_elemsOf {K : Type} [DecidableEq K] (edges : List (K × K)) (y : K) :
    y ∈ elemsOf edges ↔ ∃ e ∈ edges, y = e.1 ∨ y = e.2 := by
  unfold elemsOf
  rw [mem_foldl_addElem]
  simp

theorem elemsOf_nodup {K : Type} [DecidableEq K] (edges : List (K × K)) :
    (elemsOf edges).Nodup :=
  foldl_addElem_nodup edges [] List.nodup_nil

theorem poppable_iff {K : Type} [DecidableEq K] (edges : List (K × K)) (R : List K) (x : K) :
    poppable edges R x = true ↔ ∀ u, (u, x) ∈ edges → u ∉ R := by
  unfold poppable
  rw [List.all_eq_true]
  constructor
  · intro h u hu
    have := h (u, x) hu
    rw [decide_eq_true_iff] at this
    rcases this with h2 | h2
    · exact absurd rfl h2
    · exact h2
  · intro h e he
    rw [decide_eq_true_iff]
    by_cases hex : e.2 = x
    · exact Or.inr (by
        have : (e.1, x) ∈ edges := by rwa [← hex, Prod.mk.eta]
        exact h e.1 this)
    · exact Or.inl hex

theorem kahnStep_some {K : Type} [DecidableEq K] {edges : List (K × K)} {R : List K} {x : K}
    (h : kahnStep edges R = some x) :
    x ∈ R ∧ ∀ u, (u, x) ∈ edges → u ∉ R :=
  ⟨List.mem_of_find?_eq_some h, (poppable_iff edges R x).mp (List.find?_some h)⟩

theorem kahnStep_none {K : Type} [DecidableEq K] {edges : List (K × K)} {R : List K}
    (h : kahnStep edges R = none) :
    ∀ x ∈ R, ∃ u ∈ R, (u, x) ∈ edges := by
  intro x hx
  have := List.find?_eq_none.mp h x hx
  rw [Bool.not_eq_true] at this
  by_contra hcon
  push_neg at hcon
  have hp : poppable edges R x = true :=
    (poppable_iff edges R x).mpr fun u hu hur => hcon u hur hu
  rw [hp] at this
  cases this

/-- A finite set of vertices in which every vertex has a predecessor inside
the set yields a dependency cycle (build a long backward path, then
pigeonhole). -/
theorem cycle_of_no_source {K : Type} [DecidableEq K] (edges : List (K × K)) (R : List K)
    (hne : R ≠ []) (h : ∀ x ∈ R, ∃ u ∈ R, (u, x) ∈ edges) : HasCycle edges := by
  classical
  obtain ⟨x0, hx0⟩ : ∃ x, x ∈ R := by
    cases R with
    | nil => exact absurd rfl hne
    | cons a t => exact ⟨a, List.mem_cons_self a t⟩
  let step : {y : K // y ∈ R} → {y : K // y ∈ R} := fun s =>
    ⟨(h s.1 s.2).choose, (h s.1 s.2).choose_spec.1⟩
  let g : Nat → {y : K // y ∈ R} := fun n => Nat.rec ⟨x0, hx0⟩ (fun _ s => step s) n
  have hgedge : ∀ n, ((g (n + 1)).1, (g n).1) ∈ edges := fun n =>
    (h (g n).1 (g n).2).choose_spec.2
  have hchain : ∀ i d : Nat, Relation.TransGen (edgeRel edges) (g (i + d + 1)).1 (g i).1 := by
    intro i d
    induction d with
    | zero => exact Relation.TransGen.single (hgedge i)
    | succ d ihd => exact Relation.TransGen.head (hgedge (i + d + 1)) ihd
  have hcard : (R.toFinset).card < (Finset.univ : Finset (Fin (R.length + 1))).card := by
    rw [Finset.card_univ, Fintype.card_fin]
    exact Nat.lt_succ_of_le (List.toFinset_card_le R)
  obtain ⟨i, _, j, _, hij, hfij⟩ :=
    Finset.exists_ne_map_eq_of_card_lt_of_maps_to (f := fun i : Fin (R.length + 1) => (g i.1).1)
      hcard (fun i _ => List.mem_toFinset.mpr (g i.1).2)
  have key : ∀ i2 j2 : Nat, i2 < j2 → (g i2).1 = (g j2).1 →
      HasCycle edges := by
    intro i2 j2 hlt heq
    obtain ⟨d, hd⟩ := Nat.exists_eq_add_of_lt hlt
    refine ⟨(g i2).1, ?_⟩
    have := hchain i2 d
    rw [← hd] at this
    rw [heq]
    rw [heq] at this
    exact this
  rcases lt_or_gt_of_ne (fun he : (i : Nat) = (j : Nat) => hij (Fin.ext he)) with hlt | hlt
  · exact key i.1 j.1 hlt hfij
  · exact key j.1 i.1 hlt hfij.symm

/-- The pop loop only redistributes: output plus leftover is a permutation of
the input (plus what was already output). -/
theorem kahnAux_perm {K : Type} [DecidableEq K] (edges : List (K × K)) :
    ∀ (fuel : Nat) (R out : List K),
      ((kahnAux edges fuel R out).1 ++ (kahnAux edges fuel R out).2).Perm (out ++ R) := by
  intro fuel
  induction fuel with
  | zero => intro R out; exact List.Perm.refl _
  | succ fuel ih =>
    intro R out
    unfold kahnAux
    cases hstep : kahnStep edges R with
    | none => exact List.Perm.refl _
    | some x =>
      obtain ⟨hxR, _⟩ := kahnStep_some hstep
      refine (ih (R.erase x) (out ++ [x])).trans ?_
      rw [List.append_assoc]
      refine List.Perm.append_left out ?_
      exact (List.perm_cons_erase hxR).symm

/-- A set of vertices each of which keeps a pending predecessor inside the
set is never popped. -/
theorem kahnAux_cycle_stuck {K : Type} [DecidableEq K] (edges : List (K × K))
    (C : K → Prop) (hC : ∀ y, C y → ∃ z, C z ∧ (z, y) ∈ edges) :
    ∀ (fuel : Nat) (R out : List K), (∀ y, C y → y ∈ R) →
      ∀ y, C y → y ∈ (kahnAux edges fuel R out).2 := by
  intro fuel
  induction fuel with
  | zero => intro R out hsub y hy; exact hsub y hy
  | succ fuel ih =>
    intro R out hsub y hy
    unfold kahnAux
    cases hstep : kahnStep edges R with
    | none => exact hsub y hy
    | some x =>
      obtain ⟨hxR, hpop⟩ := kahnStep_some hstep
      have hxC : ¬ C x := by
        intro hx
        obtain ⟨z, hzC, hz⟩ := hC x hx
        exact hpop z hz (hsub z hzC)
      refine ih (R.erase x) (out ++ [x]) (fun y2 hy2 => ?_) y hy
      have hy2R := hsub y2 hy2
      have hyx : y2 ≠ x := fun he => hxC (he ▸ hy2)
      exact (List.mem_erase_of_ne hyx).mpr hy2R

/-- With no dependency cycle, a fuel of `|R|` empties the pending set. -/
theorem kahnAux_complete {K : Type} [DecidableEq K] (edges : List (K × K))
    (hnc : ¬ HasCycle edges) :
    ∀ (fuel : Nat) (R out : List K), R.Nodup → R.length ≤ fuel →
      (kahnAux edges fuel R out).2 = [] := by
  intro fuel
  induction fuel with
  | zero =>
    intro R out _ hlen
    have : R = [] := List.eq_nil_of_length_eq_zero (Nat.le_zero.mp hlen)
    rw [this]
    rfl
  | succ fuel ih =>
    intro R out hnodup hlen
    unfold kahnAux
    cases hstep : kahnStep edges R with
    | none =>
      cases hR : R with
      | nil => rfl
      | cons a t =>
        exfalso
        refine hnc (cycle_of_no_source edges R ?_ (kahnStep_none hstep))
        rw [hR]
        exact List.cons_ne_nil a t
    | some x =>
      obtain ⟨hxR, _⟩ := kahnStep_some hstep
      refine ih (R.erase x) (out ++ [x]) (hnodup.erase x) ?_
      rw [List.length_erase_of_mem hxR]
      omega

/-- Order invariant: once popped, a vertex's recorded predecessors are
already in the output, before it. -/
theorem kahnAux_ord {K : Type} [DecidableEq K] (edges : List (K × K)) :
    ∀ (fuel : Nat) (R out : List K),
      (∀ u x, (u, x) ∈ edges → x ∈ out → u ∉ R) →
      (∀ u x, (u, x) ∈ edges → x ∈ out → u ∈ out → u = x ∨ [u, x].Sublist out) →
      ∀ u x, (u, x) ∈ edges → x ∈ (kahnAux edges fuel R out).1 →
        u ∈ (kahnAux edges fuel R out).1 →
        u = x ∨ [u, x].Sublist (kahnAux edges fuel R out).1 := by
  intro fuel
  induction fuel with
  | zero => intro R out _ hord; exact hord
  | succ fuel ih =>
    intro R out hnp hord
    unfold kahnAux
    cases hstep : kahnStep edges R with
    | none => exact hord
    | some p =>
      obtain ⟨hpR, hpop⟩ := kahnStep_some hstep
      refine ih (R.erase p) (out ++ [p]) ?_ ?_
      · intro u x hux hxout hu
        have huR : u ∈ R := List.mem_of_mem_erase hu
        rcases List.mem_append.mp hxout with hx | hx
        · exact hnp u x hux hx huR
        · rw [List.mem_singleton] at hx
          subst hx
          exact hpop u hux huR
      · intro u x hux hxout huout
        rcases List.mem_append.mp hxout with hx | hx
        · rcases List.mem_append.mp huout with hu | hu
          · rcases hord u x hux hx hu with h2 | h2
            · exact Or.inl h2
            · exact Or.inr (h2.trans (List.sublist_append_left out [p]))
          · rw [List.mem_singleton] at hu
            subst hu
            exact absurd hpR (hnp u x hux hx)
        · rw [List.mem_singleton] at hx
          subst hx
          rcases List.mem_append.mp huout with hu | hu
          · exact Or.inr
              (List.Sublist.append (List.singleton_sublist.mpr hu) (List.Sublist.refl [x]))
          · rw [List.mem_singleton] at hu
            exact Or.inl hu

theorem collectEdges_ok {K V E : Type} (deps : V → List K) :
    ∀ map : List (K × V),
      collectEdges (fun v => (.ok (deps v) : Except E (List K))) map =
        .ok (pureEdges deps map) := by
  intro map
  induction map with
  | nil => rfl
  | cons kv rest ih =>
    show (collectEdges (fun v => (.ok (deps v) : Except E (List K))) rest).map
        (fun es => (deps kv.2).map (fun d => (d, kv.1)) ++ es) =
      .ok (pureEdges deps (kv :: rest))
    rw [ih]
    rfl

theorem mem_pureEdges {K V : Type} (deps : V → List K) :
    ∀ (map : List (K × V)) (e : K × K),
      e ∈ pureEdges deps map ↔ ∃ kv ∈ map, e.2 = kv.1 ∧ e.1 ∈ deps kv.2 := by
  intro map
  induction map with
  | nil => simp [pureEdges]
  | cons kv rest ih =>
    intro e
    unfold pureEdges
    rw [List.mem_append, ih]
    constructor
    · rintro (h | ⟨kv2, h2, h3⟩)
      · rcases List.mem_map.mp h with ⟨d, hd, he⟩
        exact ⟨kv, List.mem_cons_self _ _, by rw [← he], by rw [← he]; exact hd⟩
      · exact ⟨kv2, List.mem_cons_of_mem _ h2, h3⟩
    · rintro ⟨kv2, h2, h3, h4⟩
      rcases List.mem_cons.mp h2 with h5 | h5
      · subst h5
        exact Or.inl (List.mem_map.mpr ⟨e.1, h4, by rw [← h3]⟩)
      · exact Or.inr ⟨kv2, h5, h3, h4⟩

/-- With key-unique entries, `find?` by key returns the entry itself. -/
theorem find?_key_eq_of_nodup {K V : Type} [DecidableEq K] :
    ∀ (map : List (K × V)) (k : K) (v : V), (map.map Prod.fst).Nodup → (k, v) ∈ map →
      map.find? (fun kv => decide (kv.1 = k)) = some (k, v) := by
  intro map
  induction map with
  | nil => intro k v _ h; cases h
  | cons p t ih =>
    intro k v hnodup hmem
    rw [List.map_cons, List.nodup_cons] at hnodup
    rcases List.mem_cons.mp hmem with h | h
    · rw [List.find?_cons, ← h]
      simp
    · have hp : ¬ p.1 = k := by
        intro he
        exact hnodup.1 (he ▸ List.mem_map.mpr ⟨(k, v), h, rfl⟩)
      rw [List.find?_cons]
      have : (decide (p.1 = k)) = false := by
        rw [decide_eq_false_iff_not]
        exact hp
      rw [this]
      exact ih k v hnodup.2 h

theorem lookupKey_eq_of_nodup {K V : Type} [DecidableEq K]
    (map : List (K × V)) (k : K) (v : V) (hnodup : (map.map Prod.fst).Nodup)
    (hmem : (k, v) ∈ map) : lookupKey map k = some v := by
  unfold lookupKey
  rw [find?_key_eq_of_nodup map k v hnodup hmem]
  rfl

theorem extractEntries_mem {K V : Type} [DecidableEq K] :
    ∀ (ks : List K) (map : List (K × V)) (p : K × V), p ∈ extractEntries map ks →
      p.1 ∈ ks ∧ p ∈ map := by
  intro ks
  induction ks with
  | nil => intro map p h; cases h
  | cons k t ih =>
    intro map p h
    unfold extractEntries at h
    cases hf : map.find? (fun kv => decide (kv.1 = k)) with
    | none =>
      rw [hf] at h
      obtain ⟨h1, h2⟩ := ih map p h
      exact ⟨List.mem_cons_of_mem _ h1, h2⟩
    | some kv =>
      rw [hf] at h
      rcases List.mem_cons.mp h with h2 | h2
      · subst h2
        refine ⟨List.mem_cons_self _ _, ?_⟩
        have hkey : kv.1 = k := by simpa using List.find?_some hf
        have := List.mem_of_find?_eq_some hf
        rwa [← hkey, Prod.mk.eta]
      · obtain ⟨h3, h4⟩ := ih _ p h2
        exact ⟨List.mem_cons_of_mem _ h3, (List.eraseP_sublist map).subset h4⟩

theorem extractEntries_complete {K V : Type} [DecidableEq K] :
    ∀ (ks : List K) (map : List (K × V)) (k : K) (v : V),
      (map.map Prod.fst).Nodup → (k, v) ∈ map → k ∈ ks →
      (k, v) ∈ extractEntries map ks := by
  intro ks
  induction ks with
  | nil => intro map k v _ _ h; cases h
  | cons k2 t ih =>
    intro map k v hnodup hmem hk
    unfold extractEntries
    rcases List.mem_cons.mp hk with h | h
    · subst h
      rw [find?_key_eq_of_nodup map k v hnodup hmem]
      exact List.mem_cons_self _ _
    · cases hf : map.find? (fun kv => decide (kv.1 = k2)) with
      | none => exact ih map k v hnodup hmem h
      | some kv =>
        by_cases hkk : k = k2
        · subst hkk
          rw [find?_key_eq_of_nodup map k v hnodup hmem] at hf
          cases hf
          exact List.mem_cons_self _ _
        · refine List.mem_cons_of_mem _ (ih _ k v ?_ ?_ h)
          · exact ((List.eraseP_sublist map).map Prod.fst).nodup hnodup
          · refine (List.mem_eraseP_of_neg ?_).mpr hmem
            simp [hkk]

theorem lookupKey_eraseP_ne {K V : Type} [DecidableEq K] (k k2 : K) (h : k2 ≠ k) :
    ∀ map : List (K × V),
      lookupKey (map.eraseP fun kv => decide (kv.1 = k)) k2 = lookupKey map k2 := by
  intro map
  induction map with
  | nil => rfl
  | cons p t ih =>
    rw [List.eraseP_cons]
    by_cases hp : p.1 = k
    · have : (decide (p.1 = k)) = true := by rwa [decide_eq_true_iff]
      rw [this, cond_true, lookupKey_cons,
          if_neg (show ¬ p.1 = k2 from fun he => h (hp.symm.trans he).symm)]
    · have : (decide (p.1 = k)) = false := by rwa [decide_eq_false_iff_not]
      rw [this, cond_false, lookupKey_cons, lookupKey_cons, ih]

theorem extractEntries_eq_filterMap {K V : Type} [DecidableEq K] :
    ∀ (ks : List K) (map : List (K × V)), ks.Nodup →
      extractEntries map ks =
        ks.filterMap fun k => (lookupKey map k).map fun v => (k, v) := by
  intro ks
  induction ks with
  | nil => intro map _; rfl
  | cons k t ih =>
    intro map hnodup
    rw [List.nodup_cons] at hnodup
    unfold extractEntries
    rw [List.filterMap_cons]
    cases hf : map.find? (fun kv => decide (kv.1 = k)) with
    | none =>
      have hl : lookupKey map k = none := by unfold lookupKey; rw [hf]; rfl
      rw [hl]
      exact ih map hnodup.2
    | some kv =>
      have hl : lookupKey map k = some kv.2 := by unfold lookupKey; rw [hf]; rfl
      rw [hl]
      show (k, kv.2) :: _ = (k, kv.2) :: _
      rw [ih _ hnodup.2]
      refine congrArg _ (List.filterMap_congr fun k2 hk2 => ?_)
      have hne : k2 ≠ k := fun he => hnodup.1 (he ▸ hk2)
      rw [lookupKey_eraseP_ne k k2 hne map]

/-- The value computed by `topological_sort` under an infallible dependency
function. -/
theorem topological_sort_pure {K V E : Type} [DecidableEq K]
    (map : List (K × V)) (deps : V → List K) :
    topological_sort map (fun v => (.ok (deps v) : Except E (List K))) =
      .ok (if (kahnAux (pureEdges deps map) (elemsOf (pureEdges deps map)).length
                (elemsOf (pureEdges deps map)) []).2.length > 0 then none
           else some (extractEntries map
              (kahnAux (pureEdges deps map) (elemsOf (pureEdges deps map)).length
                (elemsOf (pureEdges deps map)) []).1)) := by
  unfold topological_sort
  rw [collectEdges_ok]
  rfl

/-! ## C9: output keys are input keys; isolated entries are dropped -/

/-- C9: for every input map with an infallible dependency function,
`topological_sort` never errors and every key of a returned ordering is a key
of the input map (so a dependency name that is no key is silently absent);
moreover, for a key-unique map, an entry with no dependencies that no other
entry names is omitted from the ordering entirely. -/
theorem topological_sort_keys {K V E : Type} [DecidableEq K]
    (map : List (K × V)) (deps : V → List K) :
    (∃ r, topological_sort map (fun v => (.ok (deps v) : Except E (List K))) = .ok r) ∧
    (∀ l, topological_sort map (fun v => (.ok (deps v) : Except E (List K))) =
        .ok (some l) → ∀ p ∈ l, p.1 ∈ map.map Prod.fst) ∧
    (∀ k v, (map.map Prod.fst).Nodup → (k, v) ∈ map → deps v = [] →
      (∀ k2 v2, (k2, v2) ∈ map → k ∉ deps v2) →
      ∀ l, topological_sort map (fun v => (.ok (deps v) : Except E (List K))) =
        .ok (some l) → ∀ p ∈ l, p.1 ≠ k) := by
  have hpure := topological_sort_pure (E := E) map deps
  refine ⟨⟨_, hpure⟩, ?_, ?_⟩
  · intro l hl p hp
    rw [hpure, Except.ok.injEq] at hl
    split at hl
    · cases hl
    · rw [Option.some.injEq] at hl
      subst hl
      obtain ⟨_, hmem⟩ := extractEntries_mem _ map p hp
      exact List.mem_map.mpr ⟨p, hmem, rfl⟩
  · intro k v hnodup hkv hnodeps hnotdep l hl p hp hpk
    rw [hpure, Except.ok.injEq] at hl
    split at hl
    · cases hl
    · rw [Option.some.injEq] at hl
      subst hl
      have hknot : k ∉ elemsOf (pureEdges deps map) := by
        rw [mem_elemsOf]
        rintro ⟨e, he, hk | hk⟩
        · rw [mem_pureEdges] at he
          obtain ⟨kv2, hkv2, _, he1⟩ := he
          exact hnotdep kv2.1 kv2.2 (by rwa [Prod.mk.eta]) (hk ▸ he1)
        · rw [mem_pureEdges] at he
          obtain ⟨kv2, hkv2, he2, he1⟩ := he
          have hkey : kv2.1 = k := by rw [← he2, ← hk]
          have hv2 : lookupKey map k = some kv2.2 :=
            lookupKey_eq_of_nodup map k kv2.2 hnodup (by rw [← hkey, Prod.mk.eta]; exact hkv2)
          have hv : lookupKey map k = some v := lookupKey_eq_of_nodup map k v hnodup hkv
          rw [hv, Option.some.injEq] at hv2
          rw [← hv2, hnodeps] at he1
          cases he1
      obtain ⟨hin, _⟩ := extractEntries_mem _ map p hp
      have hperm := kahnAux_perm (pureEdges deps map)
        (elemsOf (pureEdges deps map)).length (elemsOf (pureEdges deps map)) []
      have : p.1 ∈ elemsOf (pureEdges deps map) := by
        have h3 := hperm.mem_iff.mp (List.mem_append.mpr (Or.inl hin))
        simpa using h3
      exact hknot (hpk ▸ this)

/-- C9 witness: a map whose entry `("a", 0)` depends on the non-key `"x"` and
whose entry `("c", 2)` is isolated: no error, and in any returned ordering
`"c"` is omitted. -/
theorem topological_sort_keys_witness :
    (∃ r, topological_sort [("a", 0), ("c", 2)]
        (fun v => (.ok (if v = 0 then ["x"] else []) : Except Error (List String))) =
        .ok r) ∧
    (∀ l, topological_sort [("a", 0), ("c", 2)]
        (fun v => (.ok (if v = 0 then ["x"] else []) : Except Error (List String))) =
        .ok (some l) → ∀ p ∈ l, p.1 ≠ "c") := by
  have h := topological_sort_keys (E := Error) [("a", 0), ("c", 2)]
    (fun v => if v = 0 then ["x"] else [])
  refine ⟨h.1, fun l hl => h.2.2 "c" 2 (by decide) (by decide) (by decide) ?_ l hl⟩
  intro k2 v2 hmem
  rcases List.mem_cons.mp hmem with h2 | h2
  · rw [Prod.mk.injEq] at h2
    rw [h2.2]
    decide
  · rcases List.mem_cons.mp h2 with h3 | h3
    · rw [Prod.mk.injEq] at h3
      rw [h3.2]
      decide
    · cases h3

/-! ## C1: full ordering for acyclic inputs, cycle signalled otherwise -/

/-- C1 counterexample: the claim promises an ordering of all the map's
entries for acyclic input, but a single entry with no dependencies and no
dependants is dropped: the ordering comes back empty. -/
theorem topological_sort_singleton_counterexample :
    topological_sort [("a", 0)] (fun _ => (.ok [] : Except Error (List String))) =
      .ok (some []) ∧ ("a", (0 : Nat)) ∉ ([] : List (String × Nat)) :=
  ⟨rfl, List.not_mem_nil _⟩

/-- C1 (amended): for a key-unique input map, if the recorded dependency graph
has no cycle, `topological_sort` returns an ordering containing exactly the
map entries that participate in at least one dependency edge (an entry with
no dependencies that nothing depends on is omitted, as are dependency names
that are not map keys), and in it every entry appears after every entry its
dependency list names; if the graph has a cycle it returns the cycle signal
`none`, with no partial result, even if a subset of the entries is acyclic. -/
theorem topological_sort_order {K V E : Type} [DecidableEq K]
    (map : List (K × V)) (deps : V → List K)
    (hnodup : (map.map Prod.fst).Nodup) :
    (¬ HasCycle (pureEdges deps map) →
      ∃ l, topological_sort map (fun v => (.ok (deps v) : Except E (List K))) =
          .ok (some l) ∧
        (∀ p : K × V, p ∈ l ↔ p ∈ map ∧ p.1 ∈ elemsOf (pureEdges deps map)) ∧
        (∀ p q : K × V, p ∈ l → q ∈ l → q.1 ∈ deps p.2 → [q, p].Sublist l)) ∧
    (HasCycle (pureEdges deps map) →
      topological_sort map (fun v => (.ok (deps v) : Except E (List K))) = .ok none) := by
  have hpure := topological_sort_pure (E := E) map deps
  have hperm := kahnAux_perm (pureEdges deps map)
    (elemsOf (pureEdges deps map)).length (elemsOf (pureEdges deps map)) []
  constructor
  · intro hnc
    have hrest : (kahnAux (pureEdges deps map) (elemsOf (pureEdges deps map)).length
        (elemsOf (pureEdges deps map)) []).2 = [] :=
      kahnAux_complete (pureEdges deps map) hnc (elemsOf (pureEdges deps map)).length
        (elemsOf (pureEdges deps map)) [] (elemsOf_nodup _) (le_refl _)
    have hlistperm : (kahnAux (pureEdges deps map) (elemsOf (pureEdges deps map)).length
        (elemsOf (pureEdges deps map)) []).1.Perm (elemsOf (pureEdges deps map)) := by
      have h2 := hperm
      rw [hrest, List.append_nil, List.nil_append] at h2
      exact h2
    have hlistnodup : (kahnAux (pureEdges deps map) (elemsOf (pureEdges deps map)).length
        (elemsOf (pureEdges deps map)) []).1.Nodup :=
      hlistperm.symm.nodup (elemsOf_nodup _)
    refine ⟨extractEntries map (kahnAux (pureEdges deps map)
        (elemsOf (pureEdges deps map)).length (elemsOf (pureEdges deps map)) []).1,
      ?_, ?_, ?_⟩
    · rw [hpure, hrest]
      simp
    · intro p
      constructor
      · intro hp
        obtain ⟨h1, h2⟩ := extractEntries_mem _ map p hp
        exact ⟨h2, hlistperm.mem_iff.mp h1⟩
      · rintro ⟨h1, h2⟩
        have hk : p.1 ∈ (kahnAux (pureEdges deps map) (elemsOf (pureEdges deps map)).length
            (elemsOf (pureEdges deps map)) []).1 := hlistperm.mem_iff.mpr h2
        have := extractEntries_complete _ map p.1 p.2 hnodup (by rwa [Prod.mk.eta]) hk
        rwa [Prod.mk.eta] at this
    · intro p q hp hq hdep
      obtain ⟨hp1, hpmap⟩ := extractEntries_mem _ map p hp
      obtain ⟨hq1, hqmap⟩ := extractEntries_mem _ map q hq
      have hedge : (q.1, p.1) ∈ pureEdges deps map := by
        rw [mem_pureEdges]
        exact ⟨p, hpmap, rfl, hdep⟩
      have hord := kahnAux_ord (pureEdges deps map) (elemsOf (pureEdges deps map)).length
        (elemsOf (pureEdges deps map)) []
        (fun u x _ hx _ => absurd hx (List.not_mem_nil x))
        (fun u x _ hx _ => absurd hx (List.not_mem_nil x))
        q.1 p.1 hedge hp1 hq1
      rcases hord with heq | hsub
      · exfalso
        exact hnc ⟨p.1, Relation.TransGen.single (show edgeRel _ p.1 p.1 by
          rwa [heq] at hedge)⟩
      · have hfm := extractEntries_eq_filterMap _ map hlistnodup
        have hsub2 := hsub.filterMap fun k => (lookupKey map k).map fun v => (k, v)
        rw [← hfm] at hsub2
        have hlq : lookupKey map q.1 = some q.2 :=
          lookupKey_eq_of_nodup map q.1 q.2 hnodup (by rwa [Prod.mk.eta])
        have hlp : lookupKey map p.1 = some p.2 :=
          lookupKey_eq_of_nodup map p.1 p.2 hnodup (by rwa [Prod.mk.eta])
        have hcomp : List.filterMap (fun k => (lookupKey map k).map fun v => (k, v))
            [q.1, p.1] = [q, p] := by
          rw [List.filterMap_cons, List.filterMap_cons]
          rw [hlq, hlp]
          simp
        rwa [hcomp] at hsub2
  · intro hcyc
    obtain ⟨x, hx⟩ := hcyc
    have hCpred : ∀ y, (Relation.TransGen (edgeRel (pureEdges deps map)) x y ∧
        Relation.TransGen (edgeRel (pureEdges deps map)) y x) →
        ∃ z, (Relation.TransGen (edgeRel (pureEdges deps map)) x z ∧
          Relation.TransGen (edgeRel (pureEdges deps map)) z x) ∧
          (z, y) ∈ pureEdges deps map := by
      rintro y ⟨hxy, hyx⟩
      obtain ⟨z, hxz, hzy⟩ := Relation.TransGen.tail'_iff.mp hxy
      refine ⟨z, ⟨?_, Relation.TransGen.head hzy hyx⟩, hzy⟩
      rcases Relation.ReflTransGen.cases_head hxz with heq | ⟨c, hxc, hcz⟩
      · rw [← heq]
        exact hx
      · exact Relation.TransGen.head' hxc hcz
    have hCmem : ∀ y, (Relation.TransGen (edgeRel (pureEdges deps map)) x y ∧
        Relation.TransGen (edgeRel (pureEdges deps map)) y x) →
        y ∈ elemsOf (pureEdges deps map) := by
      rintro y ⟨hxy, _⟩
      obtain ⟨z, _, hzy⟩ := Relation.TransGen.tail'_iff.mp hxy
      rw [mem_elemsOf]
      exact ⟨(z, y), hzy, Or.inr rfl⟩
    have hstuck := kahnAux_cycle_stuck (pureEdges deps map)
      (fun y => Relation.TransGen (edgeRel (pureEdges deps map)) x y ∧
        Relation.TransGen (edgeRel (pureEdges deps map)) y x)
      hCpred (elemsOf (pureEdges deps map)).length (elemsOf (pureEdges deps map)) []
      hCmem x ⟨hx, hx⟩
    rw [hpure, if_pos (List.length_pos.mpr (List.ne_nil_of_mem hstuck))]

/-- C1 witness (amended theorem at concrete inputs): the cyclic two-entry map
`a ↔ b` yields the cycle signal and no partial order. -/
theorem topological_sort_order_witness :
    topological_sort [("a", 0), ("b", 1)]
      (fun v => (.ok (if v = 0 then ["b"] else ["a"]) : Except Error (List String))) =
      .ok none := by
  have hcyc : HasCycle (pureEdges (fun v : Nat => if v = 0 then ["b"] else ["a"])
      [("a", 0), ("b", 1)]) := by
    refine ⟨"a", Relation.TransGen.head (b := "b") ?_ (Relation.TransGen.single ?_)⟩
    · show ("a", "b") ∈ _
      decide
    · show ("b", "a") ∈ _
      decide
  exact (topological_sort_order [("a", 0), ("b", 1)]
    (fun v => if v = 0 then ["b"] else ["a"]) (by decide)).2 hcyc

/-! ## C8: server schema injection -/

/-- C8: for every server factory configuration schema, the published schema
maps both `net` and `listen` to the `NetRef` (string-typed named-reference)
schema, and leaves every other property of the factory's own schema
unchanged. -/
theorem server_schema_injects_net_listen (base : List (String × SchemaTy)) (k : String) :
    lookupKey (ServerResolver.schemaProperties base) k =
      (if k = "net" ∨ k = "listen" then some NetRefSchema else lookupKey base k) := by
  unfold ServerResolver.schemaProperties
  rw [lookupKey_listInsert, lookupKey_listInsert]
  by_cases h1 : k = "listen" <;> by_cases h2 : k = "net" <;> simp [h1, h2]

end RabbitDigger
